/-
Verification of the baseball-pitch trajectory engine.

The development shallowly embeds the physics-and-integration core of the
repository: the vector force model (gravity, drag, Magnus, force summation),
the explicit Euler step, and the Pitch object with its throw loop.

Numbers are modelled as real numbers. The drag computation divides by the
velocity magnitude; when that magnitude is zero the original code produces a
not-a-number result, which the embedding models as `none` (fallible code
returns `Option`). The throw loop is a while loop, embedded as a
fuel-indexed iteration that also counts the integration steps taken.
-/
import Mathlib

noncomputable section

/-- Air density constant from the forces module. -/
def air_density : ℝ := 1.2

/-- Standard acceleration due to gravity, the value of scipy.constants.g. -/
def g : ℝ := 9.80665

/-- Dot product of two equal-length vectors, as numpy.dot on lists. -/
def dot (a b : List ℝ) : ℝ := (List.zipWith (fun x y => x * y) a b).sum

/-- Euclidean magnitude of a vector: the `sqrt(dot(v, v))` of the source. -/
def vec_norm (v : List ℝ) : ℝ := Real.sqrt (dot v v)

/-- Embeds `calculate_gravity`: the force of gravity on an object. -/
def calculate_gravity (mass : ℝ) : List ℝ := [0, -1 * g * mass, 0]

/-- Embeds `calculate_drag`: the force of air resistance.
The source computes `magnitude = sqrt(dot(velocity, velocity))`, then the
unit vector `velocity / magnitude`, and scales it by
`-0.5 * drag_coefficient * area * air_density * magnitude**2`.
When `magnitude = 0` the division yields not-a-number components, modelled
here by `none`. -/
def calculate_drag (velocity : List ℝ) (area drag_coefficient : ℝ) :
    Option (List ℝ) :=
  if vec_norm velocity = 0 then none
  else some (velocity.map (fun vi =>
    -0.5 * drag_coefficient * area * air_density * vec_norm velocity ^ 2
      * (vi / vec_norm velocity)))

/-- Embeds `calculate_magnus`: the cross product of velocity and spin, as
numpy.cross on 3-vectors. -/
def calculate_magnus (velocity spin : List ℝ) : List ℝ :=
  [velocity.getD 1 0 * spin.getD 2 0 - velocity.getD 2 0 * spin.getD 1 0,
   velocity.getD 2 0 * spin.getD 0 0 - velocity.getD 0 0 * spin.getD 2 0,
   velocity.getD 0 0 * spin.getD 1 0 - velocity.getD 1 0 * spin.getD 0 0]

/-- Embeds `add_forces`: folds an element-wise sum over the list of forces,
starting from the accumulator `[0, 0, 0]` of the source. -/
def add_forces (forces : List (List ℝ)) : List ℝ :=
  forces.foldl (fun net f => List.zipWith (fun x y => x + y) net f) [0, 0, 0]

/-- Embeds `euler.new_state`: one explicit Euler step.
`new_x = x + xp * increment` and `new_xp = xp + xpp * increment`,
element-wise via zip (so each output truncates to the shorter operand). -/
def new_state (x xp xpp : List ℝ) (increment : ℝ) :
    List ℝ × List ℝ :=
  (List.zipWith (fun a b => a + b) x (xp.map (fun e => e * increment)),
   List.zipWith (fun a b => a + b) xp (xpp.map (fun e => e * increment)))

/-- The Pitch object. Its mass, drag coefficient, radius and area are class
attributes in the source, carried here as fields that the constructor fills
with the class values. -/
structure Pitch where
  mass : ℝ
  drag_coefficient : ℝ
  radius : ℝ
  area : ℝ
  label : String
  color : String
  position : List ℝ
  trail : List (List ℝ)
  velocity : List ℝ
  spin : List ℝ

/-- Embeds `Pitch.__init__`: stores position, velocity, spin, label and
color verbatim, seeds the trail with the initial position, and carries the
class constants (mass, drag coefficient, radius, area) of the source. -/
def Pitch.init (p v s : List ℝ) (l c : String) : Pitch :=
  { mass := 0.14529
    drag_coefficient := 0.4
    radius := 0.03633
    area := Real.pi * 0.03633 ^ 2
    label := l
    color := c
    position := p
    trail := [p]
    velocity := v
    spin := s }

/-- The continue condition of the throw loop:
`position[0] < distance and position[1] > 0`. -/
def continue_cond (pos : List ℝ) (distance : ℝ) : Prop :=
  pos.getD 0 0 < distance ∧ 0 < pos.getD 1 0

instance (pos : List ℝ) (distance : ℝ) :
    Decidable (continue_cond pos distance) :=
  inferInstanceAs (Decidable (pos.getD 0 0 < distance ∧ 0 < pos.getD 1 0))

/-- The state update of one iteration of the body of `Pitch.throw`, given
the already computed drag force: net force from gravity, drag and Magnus,
acceleration by dividing by the mass, one Euler step, and the new position
appended to the trail. -/
def Pitch.stepWith (b : Pitch) (drag : List ℝ) (dt : ℝ) : Pitch :=
  let net_force :=
    add_forces [calculate_gravity b.mass, drag,
                calculate_magnus b.velocity b.spin]
  let acceleration := net_force.map (fun f => f / b.mass)
  let ns := new_state b.position b.velocity acceleration dt
  { b with
      position := ns.1
      velocity := ns.2
      trail := b.trail ++ [ns.1] }

/-- One iteration of the body of `Pitch.throw`. `none` when the drag
computation is undefined (zero velocity magnitude). -/
def Pitch.step (b : Pitch) (dt : ℝ) : Option Pitch :=
  (calculate_drag b.velocity b.area b.drag_coefficient).map
    (fun drag => b.stepWith drag dt)

/-- Embeds the while loop of `Pitch.throw`, indexed by fuel and counting the
integration steps taken. `some (q, k)` means the loop exited after exactly
`k` iterations with final state `q`; `none` means the fuel ran out before
the loop condition failed, or a step was undefined. -/
def Pitch.throwSteps (fuel : Nat) (b : Pitch) (distance dt : ℝ) :
    Option (Pitch × Nat) :=
  match fuel with
  | 0 => none
  | n + 1 =>
    if continue_cond b.position distance then
      (b.step dt).bind fun b2 =>
        (Pitch.throwSteps n b2 distance dt).map fun r => (r.1, r.2 + 1)
    else some (b, 0)

/-- A concrete pitch for the concrete-run theorems: one step with dt = 1
crosses the target distance 1. -/
def testPitch : Pitch :=
  Pitch.init [0, 10, 0] [3, 4, 0] [0, 0, 0] "Testball" "green"

/-- A concrete pitch thrown with the invalid time step dt = -1. -/
def negDtPitch : Pitch :=
  Pitch.init [0, 1, 0] [3, 4, 0] [0, 0, 0] "NegDt" "gray"

/-! Basic lemmas about the dot product. -/

lemma dot_nil_left (w : List ℝ) : dot [] w = 0 := rfl

lemma dot_nil_right (v : List ℝ) : dot v [] = 0 := by
  cases v <;> simp [dot]

lemma dot_cons (a b : ℝ) (l m : List ℝ) :
    dot (a :: l) (b :: m) = a * b + dot l m := by
  simp [dot]

/-- C1: calling the drag computation with the zero velocity vector divides
by a zero magnitude; the result is the undefined (not-a-number) value
`none`, not the zero force vector the specification promises. -/
theorem calculate_drag_zero_velocity (a c : ℝ) :
    calculate_drag [0, 0, 0] a c = none
    ∧ calculate_drag [0, 0, 0] a c ≠ some [0, 0, 0] := by
  have h : vec_norm [0, 0, 0] = 0 := by
    simp [vec_norm, dot]
  constructor
  · simp [calculate_drag, h]
  · simp [calculate_drag, h]

/-- C5: the force sum starts from the accumulator `[0, 0, 0]`, so its length
is capped at 3; on the single input `[1, 2, 3, 4]` (minimum input length 4)
it returns `[1, 2, 3]` of length 3, contradicting the claim that the result
length equals the minimum length among the inputs. -/
theorem add_forces_capped_at_three :
    add_forces [[1, 2, 3, 4]] = [1, 2, 3]
    ∧ (add_forces [[1, 2, 3, 4]]).length = 3
    ∧ ([1, 2, 3, 4] : List ℝ).length = 4 := by
  refine ⟨?_, ?_, ?_⟩ <;> norm_num [add_forces]

/-- C9: the Magnus computation is the cross product of velocity and spin in
that order (checked on the docstring example), and it is anti-commutative:
swapping the two arguments negates every component. -/
theorem magnus_cross_antisymmetric :
    (∀ a1 a2 a3 b1 b2 b3 : ℝ,
       calculate_magnus [a1, a2, a3] [b1, b2, b3]
         = (calculate_magnus [b1, b2, b3] [a1, a2, a3]).map (fun x => -x))
    ∧ calculate_magnus [42, -0.2, 1.3] [0.01, 0.02, 0.03]
        = [-0.032, -1.247, 0.842] := by
  constructor
  · intro a1 a2 a3 b1 b2 b3
    simp only [calculate_magnus, List.getD_cons_zero, List.getD_cons_succ,
      List.map_cons, List.map_nil, List.cons.injEq, and_true]
    refine ⟨by ring, by ring, by ring⟩
  · norm_num [calculate_magnus]

/-- Component formula for the zip in one half of the Euler step. -/
lemma getD_zipWith_step (x : List ℝ) (dt : ℝ) :
    ∀ (xp : List ℝ) (i : Nat), i < x.length → i < xp.length →
      (List.zipWith (fun a b => a + b) x
          (xp.map (fun e => e * dt))).getD i 0
        = x.getD i 0 + xp.getD i 0 * dt := by
  induction x with
  | nil => intro xp i hi _; simp at hi
  | cons a t ih =>
    intro xp i hi hp
    cases xp with
    | nil => simp at hp
    | cons b u =>
      cases i with
      | zero => simp
      | succ j =>
        simp only [List.map_cons, List.zipWith_cons_cons, List.getD_cons_succ]
        exact ih u j (by simpa using hi) (by simpa using hp)

/-- C3: the Euler step returns exactly `x[i] + xp[i]*dt` and
`xp[i] + xpp[i]*dt` on each axis for equal-length vectors, and on the
docstring example it returns position `[10.7, 11.05, 8.2]` and velocity
`[1.45, -3, 1.5]` exactly. -/
theorem new_state_euler_step :
    (∀ (x xp xpp : List ℝ) (dt : ℝ),
       xp.length = x.length → xpp.length = x.length →
       ((new_state x xp xpp dt).1.length = x.length
        ∧ (new_state x xp xpp dt).2.length = x.length
        ∧ ∀ i, i < x.length →
            (new_state x xp xpp dt).1.getD i 0
              = x.getD i 0 + xp.getD i 0 * dt
            ∧ (new_state x xp xpp dt).2.getD i 0
              = xp.getD i 0 + xpp.getD i 0 * dt))
    ∧ new_state [10, 12.5, 7.2] [1.4, -2.9, 2] [0.1, -0.2, -1] 0.5
        = ([10.7, 11.05, 8.2], [1.45, -3, 1.5]) := by
  constructor
  · intro x xp xpp dt hxp hxpp
    refine ⟨?_, ?_, ?_⟩
    · simp [new_state, hxp]
    · simp [new_state, hxp, hxpp]
    · intro i hi
      exact ⟨getD_zipWith_step x dt xp i hi (by omega),
             getD_zipWith_step xp dt xpp i (by omega) (by omega)⟩
  · norm_num [new_state]

/-! Lemmas for the drag characterization. -/

lemma dot_comm : ∀ v w : List ℝ, dot v w = dot w v := by
  intro v
  induction v with
  | nil => intro w; rw [dot_nil_left, dot_nil_right]
  | cons a t ih =>
    intro w
    cases w with
    | nil => rw [dot_nil_left, dot_nil_right]
    | cons b u => rw [dot_cons, dot_cons, ih, mul_comm]

lemma dot_self_nonneg (v : List ℝ) : 0 ≤ dot v v := by
  induction v with
  | nil => simp [dot]
  | cons a t ih =>
    rw [dot_cons]
    exact add_nonneg (mul_self_nonneg a) ih

lemma dot_self_pos (v : List ℝ) (h : ∃ x ∈ v, x ≠ 0) : 0 < dot v v := by
  induction v with
  | nil => simp at h
  | cons a t ih =>
    rw [dot_cons]
    rcases h with ⟨x, hx, hx0⟩
    rcases List.mem_cons.1 hx with rfl | hmem
    · exact add_pos_of_pos_of_nonneg (mul_self_pos.2 hx0) (dot_self_nonneg t)
    · exact add_pos_of_nonneg_of_pos (mul_self_nonneg a) (ih ⟨x, hmem, hx0⟩)

lemma dot_map_left (k : ℝ) (v : List ℝ) :
    ∀ w, dot (v.map (fun x => k * x)) w = k * dot v w := by
  induction v with
  | nil => intro w; simp [dot]
  | cons a t ih =>
    intro w
    cases w with
    | nil => rw [dot_nil_right, dot_nil_right, mul_zero]
    | cons b u =>
      rw [List.map_cons, dot_cons, dot_cons, ih u]
      ring

lemma vec_norm_pos (v : List ℝ) (h : ∃ x ∈ v, x ≠ 0) : 0 < vec_norm v :=
  Real.sqrt_pos.2 (dot_self_pos v h)

lemma vec_norm_map (k : ℝ) (v : List ℝ) :
    vec_norm (v.map (fun x => k * x)) = |k| * vec_norm v := by
  unfold vec_norm
  rw [dot_map_left, dot_comm, dot_map_left]
  have h : k * (k * dot v v) = k ^ 2 * dot v v := by ring
  rw [h, Real.sqrt_mul (sq_nonneg k), Real.sqrt_sq_eq_abs]

/-- On a velocity of nonzero magnitude the drag force is the velocity scaled
by `-0.5 * c * a * air_density * vec_norm v`. -/
lemma calculate_drag_eq_map (v : List ℝ) (a c : ℝ) (hv : ∃ x ∈ v, x ≠ 0) :
    calculate_drag v a c
      = some (v.map (fun x => -0.5 * c * a * air_density * vec_norm v * x)) := by
  have hm : vec_norm v ≠ 0 := ne_of_gt (vec_norm_pos v hv)
  unfold calculate_drag
  rw [if_neg hm]
  have hfun :
      (fun vi => -0.5 * c * a * air_density * vec_norm v ^ 2
        * (vi / vec_norm v))
      = (fun x : ℝ => -0.5 * c * a * air_density * vec_norm v * x) := by
    funext x
    field_simp
    ring
  rw [hfun]

/-- C8: for a nonzero velocity and positive area and drag coefficient, the
drag force has negative dot product with the velocity, its magnitude is
`0.5 * c * a * air_density * |v|^2`, and doubling the velocity quadruples
the drag magnitude. -/
theorem drag_antiparallel_quadratic (v : List ℝ) (a c : ℝ)
    (ha : 0 < a) (hc : 0 < c) (hv : ∃ x ∈ v, x ≠ 0) :
    ∃ F, calculate_drag v a c = some F
      ∧ dot F v < 0
      ∧ vec_norm F = 0.5 * c * a * air_density * vec_norm v ^ 2
      ∧ ∃ F2, calculate_drag (v.map (fun x => 2 * x)) a c = some F2
          ∧ vec_norm F2 = 4 * vec_norm F := by
  have hρ : (0 : ℝ) < air_density := by norm_num [air_density]
  have hm : 0 < vec_norm v := vec_norm_pos v hv
  have hpos : 0 < 0.5 * c * a * air_density * vec_norm v :=
    mul_pos (mul_pos (mul_pos
      (mul_pos (by norm_num : (0 : ℝ) < 0.5) hc) ha) hρ) hm
  have hkneg : -0.5 * c * a * air_density * vec_norm v < 0 := by nlinarith
  have hFnorm :
      vec_norm (v.map (fun x => -0.5 * c * a * air_density * vec_norm v * x))
        = 0.5 * c * a * air_density * vec_norm v * vec_norm v := by
    rw [vec_norm_map, abs_of_neg hkneg]
    ring
  refine ⟨_, calculate_drag_eq_map v a c hv, ?_, ?_, ?_⟩
  · rw [dot_map_left]
    exact mul_neg_of_neg_of_pos hkneg (dot_self_pos v hv)
  · rw [hFnorm]; ring
  · have hv2 : ∃ x ∈ v.map (fun x => 2 * x), x ≠ 0 := by
      obtain ⟨x, hxv, hx⟩ := hv
      exact ⟨2 * x, List.mem_map_of_mem _ hxv, mul_ne_zero two_ne_zero hx⟩
    have hn2 : vec_norm (v.map (fun x => 2 * x)) = 2 * vec_norm v := by
      rw [vec_norm_map]
      norm_num
    refine ⟨_, calculate_drag_eq_map _ a c hv2, ?_⟩
    rw [vec_norm_map, hn2,
      abs_of_neg (by nlinarith : -0.5 * c * a * air_density
        * (2 * vec_norm v) < 0), hFnorm]
    ring

/-- Witness for C8 at a concrete input. -/
theorem drag_antiparallel_quadratic_witness :
    (0 : ℝ) < 1 ∧ (∃ x ∈ ([3, 4, 0] : List ℝ), x ≠ 0)
    ∧ (∃ F, calculate_drag [3, 4, 0] 1 1 = some F
        ∧ dot F [3, 4, 0] < 0
        ∧ vec_norm F = 0.5 * 1 * 1 * air_density * vec_norm [3, 4, 0] ^ 2
        ∧ ∃ F2, calculate_drag (([3, 4, 0] : List ℝ).map (fun x => 2 * x)) 1 1
              = some F2
            ∧ vec_norm F2 = 4 * vec_norm F) :=
  ⟨by norm_num, ⟨3, by simp, by norm_num⟩,
    drag_antiparallel_quadratic [3, 4, 0] 1 1 (by norm_num) (by norm_num)
      ⟨3, by simp, by norm_num⟩⟩

/-- Witness for C3 at a concrete input. -/
theorem new_state_euler_step_witness :
    (new_state [1, 2] [3, 4] [5, 6] 2).1.getD 0 0 = (1 : ℝ) + 3 * 2
    ∧ (new_state [1, 2] [3, 4] [5, 6] 2).2.getD 1 0 = (4 : ℝ) + 6 * 2 := by
  have h := new_state_euler_step.1 [1, 2] [3, 4] [5, 6] 2
    (by simp) (by simp)
  exact ⟨(h.2.2 0 (by simp)).1, (h.2.2 1 (by simp)).2⟩

/-! Structural lemmas about the throw loop. -/

lemma step_eq_some (b : Pitch) (dt : ℝ) (b2 : Pitch)
    (h : b.step dt = some b2) :
    ∃ drag, calculate_drag b.velocity b.area b.drag_coefficient = some drag
      ∧ b2 = b.stepWith drag dt := by
  unfold Pitch.step at h
  rcases Option.map_eq_some'.1 h with ⟨drag, hd, hb⟩
  exact ⟨drag, hd, hb.symm⟩

lemma stepWith_trail (b : Pitch) (drag : List ℝ) (dt : ℝ) :
    (b.stepWith drag dt).trail = b.trail ++ [(b.stepWith drag dt).position] :=
  rfl

lemma stepWith_frame (b : Pitch) (drag : List ℝ) (dt : ℝ) :
    (b.stepWith drag dt).mass = b.mass
    ∧ (b.stepWith drag dt).area = b.area
    ∧ (b.stepWith drag dt).radius = b.radius
    ∧ (b.stepWith drag dt).drag_coefficient = b.drag_coefficient
    ∧ (b.stepWith drag dt).spin = b.spin
    ∧ (b.stepWith drag dt).label = b.label
    ∧ (b.stepWith drag dt).color = b.color :=
  ⟨rfl, rfl, rfl, rfl, rfl, rfl, rfl⟩

lemma throwSteps_stop (n : Nat) (b : Pitch) (d dt : ℝ)
    (h : ¬ continue_cond b.position d) :
    Pitch.throwSteps (n + 1) b d dt = some (b, 0) := by
  unfold Pitch.throwSteps
  rw [if_neg h]

lemma throwSteps_go (n : Nat) (b : Pitch) (d dt : ℝ)
    (hc : continue_cond b.position d) (b2 : Pitch) (hs : b.step dt = some b2)
    (q : Pitch) (k : Nat) (hrec : Pitch.throwSteps n b2 d dt = some (q, k)) :
    Pitch.throwSteps (n + 1) b d dt = some (q, k + 1) := by
  unfold Pitch.throwSteps
  rw [if_pos hc, hs, Option.some_bind, hrec, Option.map_some']

/-- Inversion of one unfolding of the throw loop. -/
lemma throwSteps_succ_inv (m : Nat) (b : Pitch) (d dt : ℝ) (q : Pitch)
    (k : Nat) (h : Pitch.throwSteps (m + 1) b d dt = some (q, k)) :
    (¬ continue_cond b.position d ∧ q = b ∧ k = 0)
    ∨ (continue_cond b.position d ∧ ∃ b2 k0, b.step dt = some b2
        ∧ Pitch.throwSteps m b2 d dt = some (q, k0) ∧ k = k0 + 1) := by
  unfold Pitch.throwSteps at h
  by_cases hc : continue_cond b.position d
  · rw [if_pos hc] at h
    right
    rcases Option.bind_eq_some.1 h with ⟨b2, hs, hmap⟩
    rcases Option.map_eq_some'.1 hmap with ⟨⟨q2, k2⟩, hrec, heq⟩
    have hq : q2 = q := by simpa using congrArg Prod.fst heq
    have hk : k2 + 1 = k := by simpa using congrArg Prod.snd heq
    exact ⟨hc, b2, k2, hs, by rw [hrec, hq], hk.symm⟩
  · rw [if_neg hc] at h
    left
    have hq : b = q := by simpa using congrArg Prod.fst (Option.some.inj h)
    have hk : (0 : Nat) = k := by
      simpa using congrArg Prod.snd (Option.some.inj h)
    exact ⟨hc, hq.symm, hk.symm⟩

/-- Whenever the loop exits it is because the stopping condition holds of
the final position. -/
lemma throwSteps_final_stopped :
    ∀ (n : Nat) (b : Pitch) (d dt : ℝ) (q : Pitch) (k : Nat),
      Pitch.throwSteps n b d dt = some (q, k) →
      ¬ continue_cond q.position d := by
  intro n
  induction n with
  | zero => intro b d dt q k h; simp [Pitch.throwSteps] at h
  | succ m ih =>
    intro b d dt q k h
    rcases throwSteps_succ_inv m b d dt q k h with
        ⟨hnc, rfl, _⟩ | ⟨_, b2, k0, _, hrec, _⟩
    · exact hnc
    · exact ih b2 d dt q k0 hrec

/-- The loop only ever appends to the trail: one new entry per step. -/
lemma throwSteps_trail_extend :
    ∀ (n : Nat) (b : Pitch) (d dt : ℝ) (q : Pitch) (k : Nat),
      Pitch.throwSteps n b d dt = some (q, k) →
      ∃ t : List (List ℝ), q.trail = b.trail ++ t ∧ t.length = k := by
  intro n
  induction n with
  | zero => intro b d dt q k h; simp [Pitch.throwSteps] at h
  | succ m ih =>
    intro b d dt q k h
    rcases throwSteps_succ_inv m b d dt q k h with
        ⟨_, rfl, rfl⟩ | ⟨_, b2, k0, hs, hrec, rfl⟩
    · exact ⟨[], by simp, rfl⟩
    · obtain ⟨t, ht, hlen⟩ := ih b2 d dt q k0 hrec
      obtain ⟨drag, _, rfl⟩ := step_eq_some b dt b2 hs
      refine ⟨(b.stepWith drag dt).position :: t, ?_, by simp [hlen]⟩
      rw [ht, stepWith_trail]
      simp

/-- Invariant of the loop: if the trail is a block of positions satisfying
the continue condition followed by the current position, it stays so. -/
lemma throwSteps_trail_partition :
    ∀ (n : Nat) (b : Pitch) (d dt : ℝ) (q : Pitch) (k : Nat),
      Pitch.throwSteps n b d dt = some (q, k) →
      ∀ u0 : List (List ℝ), b.trail = u0 ++ [b.position] →
        (∀ e ∈ u0, continue_cond e d) →
        ∃ u : List (List ℝ), q.trail = u ++ [q.position]
          ∧ ∀ e ∈ u, continue_cond e d := by
  intro n
  induction n with
  | zero => intro b d dt q k h; simp [Pitch.throwSteps] at h
  | succ m ih =>
    intro b d dt q k h u0 hu0 hall
    rcases throwSteps_succ_inv m b d dt q k h with
        ⟨_, rfl, _⟩ | ⟨hc, b2, k0, hs, hrec, _⟩
    · exact ⟨u0, hu0, hall⟩
    · obtain ⟨drag, _, rfl⟩ := step_eq_some b dt b2 hs
      refine ih _ d dt q k0 hrec (u0 ++ [b.position]) ?_ ?_
      · rw [stepWith_trail, hu0]
      · intro e he
        rcases List.mem_append.1 he with he | he
        · exact hall e he
        · obtain rfl := List.mem_singleton.1 he
          exact hc

/-- C10: a throw changes only position, velocity and trail; the mass, area,
radius, drag coefficient, spin, label and color fields are exactly the same
after the loop returns as before. -/
theorem throw_frame_condition :
    ∀ (n : Nat) (b : Pitch) (d dt : ℝ) (q : Pitch) (k : Nat),
      Pitch.throwSteps n b d dt = some (q, k) →
      q.mass = b.mass ∧ q.area = b.area ∧ q.radius = b.radius
      ∧ q.drag_coefficient = b.drag_coefficient ∧ q.spin = b.spin
      ∧ q.label = b.label ∧ q.color = b.color := by
  intro n
  induction n with
  | zero => intro b d dt q k h; simp [Pitch.throwSteps] at h
  | succ m ih =>
    intro b d dt q k h
    rcases throwSteps_succ_inv m b d dt q k h with
        ⟨_, rfl, _⟩ | ⟨_, b2, k0, hs, hrec, _⟩
    · exact ⟨rfl, rfl, rfl, rfl, rfl, rfl, rfl⟩
    · obtain ⟨drag, _, rfl⟩ := step_eq_some b dt b2 hs
      obtain ⟨m1, m2, m3, m4, m5, m6, m7⟩ := ih _ d dt q k0 hrec
      obtain ⟨s1, s2, s3, s4, s5, s6, s7⟩ := stepWith_frame b drag dt
      exact ⟨m1.trans s1, m2.trans s2, m3.trans s3, m4.trans s4,
             m5.trans s5, m6.trans s6, m7.trans s7⟩

/-- Witness for C10 at a concrete input. -/
theorem throw_frame_condition_witness :
    Pitch.throwSteps 1
        (Pitch.init [7, 2, 0] [1, 1, 0] [0, 0, 1] "Frame" "blue") 4 1
      = some (Pitch.init [7, 2, 0] [1, 1, 0] [0, 0, 1] "Frame" "blue", 0)
    ∧ (Pitch.init [7, 2, 0] [1, 1, 0] [0, 0, 1] "Frame" "blue").spin
      = (Pitch.init [7, 2, 0] [1, 1, 0] [0, 0, 1] "Frame" "blue").spin := by
  have hrun : Pitch.throwSteps 1
      (Pitch.init [7, 2, 0] [1, 1, 0] [0, 0, 1] "Frame" "blue") 4 1
      = some (Pitch.init [7, 2, 0] [1, 1, 0] [0, 0, 1] "Frame" "blue", 0) :=
    throwSteps_stop 0 _ 4 1 (by norm_num [continue_cond, Pitch.init])
  exact ⟨hrun, (throw_frame_condition 1 _ 4 1 _ 0 hrun).2.2.2.2.1⟩

/-- C6: a Body whose initial position already meets the stopping condition
takes zero steps, and its trail holds exactly the initial position. -/
theorem throw_degenerate_zero_steps (p v s : List ℝ) (l c : String)
    (d dt : ℝ) (n : Nat)
    (h : d ≤ p.getD 0 0 ∨ p.getD 1 0 ≤ 0) :
    Pitch.throwSteps (n + 1) (Pitch.init p v s l c) d dt
      = some (Pitch.init p v s l c, 0)
    ∧ (Pitch.init p v s l c).trail = [p] := by
  have hc : ¬ continue_cond (Pitch.init p v s l c).position d := by
    show ¬ (p.getD 0 0 < d ∧ 0 < p.getD 1 0)
    rcases h with h | h
    · exact fun hcc => absurd hcc.1 (not_lt.2 h)
    · exact fun hcc => absurd hcc.2 (not_lt.2 h)
  exact ⟨throwSteps_stop n _ d dt hc, rfl⟩

/-- Witness for C6 at a concrete input. -/
theorem throw_degenerate_zero_steps_witness :
    ((3 : ℝ) ≤ ([5, 1, 0] : List ℝ).getD 0 0
      ∨ ([5, 1, 0] : List ℝ).getD 1 0 ≤ 0)
    ∧ Pitch.throwSteps 1
        (Pitch.init [5, 1, 0] [0, 0, 0] [0, 0, 0] "Degenerate" "gray") 3 1
      = some (Pitch.init [5, 1, 0] [0, 0, 0] [0, 0, 0] "Degenerate" "gray", 0)
    ∧ (Pitch.init [5, 1, 0] [0, 0, 0] [0, 0, 0] "Degenerate" "gray").trail
      = [[5, 1, 0]] := by
  have h : (3 : ℝ) ≤ ([5, 1, 0] : List ℝ).getD 0 0
      ∨ ([5, 1, 0] : List ℝ).getD 1 0 ≤ 0 := Or.inl (by norm_num)
  have hthm := throw_degenerate_zero_steps [5, 1, 0] [0, 0, 0] [0, 0, 0]
    "Degenerate" "gray" 3 1 0 h
  exact ⟨h, hthm.1, hthm.2⟩

/-- C7: the trail is an ordered append-only sequence: construction seeds it
with the release point, each step appends exactly the new position, a loop
run only extends the old trail, and a throw of k steps from a fresh Pitch
leaves a trail of length k + 1 whose head is the release point. -/
theorem trail_append_only :
    (∀ (p v s : List ℝ) (l c : String), (Pitch.init p v s l c).trail = [p])
    ∧ (∀ (b : Pitch) (dt : ℝ) (b2 : Pitch), b.step dt = some b2 →
        b2.trail = b.trail ++ [b2.position])
    ∧ (∀ (n : Nat) (b : Pitch) (d dt : ℝ) (q : Pitch) (k : Nat),
        Pitch.throwSteps n b d dt = some (q, k) →
        ∃ t : List (List ℝ), q.trail = b.trail ++ t ∧ t.length = k)
    ∧ (∀ (n : Nat) (p v s : List ℝ) (l c : String) (d dt : ℝ)
        (q : Pitch) (k : Nat),
        Pitch.throwSteps n (Pitch.init p v s l c) d dt = some (q, k) →
        q.trail.length = k + 1 ∧ q.trail.getD 0 [] = p) := by
  refine ⟨fun p v s l c => rfl, ?_, throwSteps_trail_extend, ?_⟩
  · intro b dt b2 hs
    obtain ⟨drag, _, rfl⟩ := step_eq_some b dt b2 hs
    exact stepWith_trail b drag dt
  · intro n p v s l c d dt q k h
    obtain ⟨t, ht, hlen⟩ := throwSteps_trail_extend n _ d dt q k h
    have htrail : q.trail = p :: t := ht
    constructor
    · rw [htrail]
      simp [hlen]
    · rw [htrail]
      rfl

/-- Witness for C7 at a concrete input. -/
theorem trail_append_only_witness :
    Pitch.throwSteps 1
        (Pitch.init [6, -1, 0] [0, 0, 0] [0, 0, 0] "Ground" "teal") 9 1
      = some (Pitch.init [6, -1, 0] [0, 0, 0] [0, 0, 0] "Ground" "teal", 0)
    ∧ (Pitch.init [6, -1, 0] [0, 0, 0] [0, 0, 0] "Ground" "teal").trail.length
        = 0 + 1
    ∧ (Pitch.init [6, -1, 0] [0, 0, 0] [0, 0, 0]
        "Ground" "teal").trail.getD 0 [] = [6, -1, 0] := by
  have hrun : Pitch.throwSteps 1
      (Pitch.init [6, -1, 0] [0, 0, 0] [0, 0, 0] "Ground" "teal") 9 1
      = some (Pitch.init [6, -1, 0] [0, 0, 0] [0, 0, 0] "Ground" "teal", 0) :=
    throwSteps_stop 0 _ 9 1 (by norm_num [continue_cond, Pitch.init])
  have h := trail_append_only.2.2.2 1 [6, -1, 0] [0, 0, 0] [0, 0, 0]
    "Ground" "teal" 9 1 _ 0 hrun
  exact ⟨hrun, h.1, h.2⟩

/-- C2 (amended): the loop exits exactly when the stopping condition holds,
the check is at the start of each iteration (a state already satisfying it
is returned unchanged with zero steps and no force computation), and the
final recorded trail position is the FIRST one satisfying the stopping
condition: every earlier trail entry satisfies the continue condition,
while the final entry fails it. -/
theorem throw_termination_amended :
    (∀ (n : Nat) (b : Pitch) (d dt : ℝ) (q : Pitch) (k : Nat),
        Pitch.throwSteps n b d dt = some (q, k) →
        ¬ continue_cond q.position d)
    ∧ (∀ (n : Nat) (b : Pitch) (d dt : ℝ),
        ¬ continue_cond b.position d →
        Pitch.throwSteps (n + 1) b d dt = some (b, 0))
    ∧ (∀ (n : Nat) (p v s : List ℝ) (l c : String) (d dt : ℝ)
        (q : Pitch) (k : Nat),
        Pitch.throwSteps n (Pitch.init p v s l c) d dt = some (q, k) →
        ∃ u : List (List ℝ), q.trail = u ++ [q.position]
          ∧ (∀ e ∈ u, continue_cond e d)
          ∧ ¬ continue_cond q.position d) := by
  refine ⟨throwSteps_final_stopped,
    fun n b d dt h => throwSteps_stop n b d dt h, ?_⟩
  intro n p v s l c d dt q k h
  obtain ⟨u, hu, hall⟩ :=
    throwSteps_trail_partition n _ d dt q k h [] rfl (by simp)
  exact ⟨u, hu, hall, throwSteps_final_stopped n _ d dt q k h⟩

/-- Witness for C2 (amended) at a concrete input. -/
theorem throw_termination_amended_witness :
    ¬ continue_cond
        (Pitch.init [9, 1, 0] [1, 0, 0] [0, 0, 0] "Stopped" "red").position 5
    ∧ Pitch.throwSteps 1
        (Pitch.init [9, 1, 0] [1, 0, 0] [0, 0, 0] "Stopped" "red") 5 1
      = some (Pitch.init [9, 1, 0] [1, 0, 0] [0, 0, 0] "Stopped" "red", 0) := by
  have hnc : ¬ continue_cond
      (Pitch.init [9, 1, 0] [1, 0, 0] [0, 0, 0] "Stopped" "red").position 5 :=
    by norm_num [continue_cond, Pitch.init]
  exact ⟨hnc, throw_termination_amended.2.1 0 _ 5 1 hnc⟩

/-! Concrete one-step runs. -/

lemma dot_340 : dot [3, 4, 0] [3, 4, 0] = 25 := by
  norm_num [dot]

lemma vec_norm_340 : vec_norm [3, 4, 0] ≠ 0 := by
  unfold vec_norm
  rw [dot_340]
  positivity

lemma drag_340_some (a c : ℝ) :
    ∃ drag, calculate_drag [3, 4, 0] a c = some drag := by
  unfold calculate_drag
  rw [if_neg vec_norm_340]
  exact ⟨_, rfl⟩

lemma testPitch_step_position (drag : List ℝ) :
    (testPitch.stepWith drag 1).position = [3, 14, 0] := by
  norm_num [Pitch.stepWith, testPitch, Pitch.init, new_state]

lemma testPitch_step_trail (drag : List ℝ) :
    (testPitch.stepWith drag 1).trail = [[0, 10, 0], [3, 14, 0]] := by
  norm_num [Pitch.stepWith, testPitch, Pitch.init, new_state]

lemma testPitch_run :
    (Pitch.throwSteps 2 testPitch 1 1).map (fun r => (r.1.trail, r.2))
      = some ([[0, 10, 0], [3, 14, 0]], 1) := by
  obtain ⟨drag, hd⟩ := drag_340_some testPitch.area testPitch.drag_coefficient
  have hstep : testPitch.step 1 = some (testPitch.stepWith drag 1) := by
    unfold Pitch.step
    have hv : testPitch.velocity = [3, 4, 0] := rfl
    rw [hv, hd, Option.map_some']
  have hnc : ¬ continue_cond (testPitch.stepWith drag 1).position 1 := by
    norm_num [continue_cond, testPitch_step_position]
  have h1 : Pitch.throwSteps 1 (testPitch.stepWith drag 1) 1 1
      = some (testPitch.stepWith drag 1, 0) := throwSteps_stop 0 _ 1 1 hnc
  have hc0 : continue_cond testPitch.position 1 := by
    norm_num [continue_cond, testPitch, Pitch.init]
  have h2 : Pitch.throwSteps 2 testPitch 1 1
      = some (testPitch.stepWith drag 1, 1) :=
    throwSteps_go 1 testPitch 1 1 hc0 _ hstep _ 0 h1
  rw [h2, Option.map_some', testPitch_step_trail]

/-- C2 counterexample: a concrete throw whose final recorded trail position
is `[3, 14, 0]`, which VIOLATES the continue condition (its first coordinate
is already past the target distance 1), refuting the claim that the final
recorded trail position is the last one satisfying the continue
condition. -/
theorem throw_final_trail_entry_violates_continue :
    (Pitch.throwSteps 2 testPitch 1 1).map (fun r => (r.1.trail, r.2))
      = some ([[0, 10, 0], [3, 14, 0]], 1)
    ∧ ([[0, 10, 0], [3, 14, 0]] : List (List ℝ)).getLast? = some [3, 14, 0]
    ∧ ¬ continue_cond [3, 14, 0] 1 := by
  refine ⟨testPitch_run, rfl, ?_⟩
  norm_num [continue_cond]

/-! The negative-dt run for C4. -/

lemma negDtPitch_step_position (drag : List ℝ) :
    (negDtPitch.stepWith drag (-1)).position = [-3, -3, 0] := by
  norm_num [Pitch.stepWith, negDtPitch, Pitch.init, new_state]

lemma negDtPitch_step_trail (drag : List ℝ) :
    (negDtPitch.stepWith drag (-1)).trail = [[0, 1, 0], [-3, -3, 0]] := by
  norm_num [Pitch.stepWith, negDtPitch, Pitch.init, new_state]

lemma negDtPitch_run :
    (Pitch.throwSteps 2 negDtPitch 10 (-1)).map (fun r => (r.1.trail, r.2))
      = some ([[0, 1, 0], [-3, -3, 0]], 1) := by
  obtain ⟨drag, hd⟩ :=
    drag_340_some negDtPitch.area negDtPitch.drag_coefficient
  have hstep : negDtPitch.step (-1) = some (negDtPitch.stepWith drag (-1)) := by
    unfold Pitch.step
    have hv : negDtPitch.velocity = [3, 4, 0] := rfl
    rw [hv, hd, Option.map_some']
  have hnc : ¬ continue_cond (negDtPitch.stepWith drag (-1)).position 10 := by
    norm_num [continue_cond, negDtPitch_step_position]
  have h1 : Pitch.throwSteps 1 (negDtPitch.stepWith drag (-1)) 10 (-1)
      = some (negDtPitch.stepWith drag (-1), 0) := throwSteps_stop 0 _ 10 (-1) hnc
  have hc0 : continue_cond negDtPitch.position 10 := by
    norm_num [continue_cond, negDtPitch, Pitch.init]
  have h2 : Pitch.throwSteps 2 negDtPitch 10 (-1)
      = some (negDtPitch.stepWith drag (-1), 1) :=
    throwSteps_go 1 negDtPitch 10 (-1) hc0 _ hstep _ 0 h1
  rw [h2, Option.map_some', negDtPitch_step_trail]

/-- C4 counterexample: construction with position, velocity and spin of
pairwise different dimensionalities succeeds and stores the vectors
verbatim; nothing fails at the boundary. -/
theorem init_accepts_invalid_input :
    (Pitch.init [0] [1, 2] [3, 4, 5] "Bad" "gray").position = [0]
    ∧ (Pitch.init [0] [1, 2] [3, 4, 5] "Bad" "gray").velocity = [1, 2]
    ∧ (Pitch.init [0] [1, 2] [3, 4, 5] "Bad" "gray").spin = [3, 4, 5]
    ∧ ([0] : List ℝ).length ≠ ([1, 2] : List ℝ).length :=
  ⟨rfl, rfl, rfl, by simp⟩

/-- C4 (amended): no validation is performed anywhere. Construction accepts
every position/velocity/spin (mismatched dimensionality included) and
stores the inputs verbatim, and the throw loop accepts dt = -1, taking an
integration step instead of failing. -/
theorem no_validation_performed :
    (∀ (p v s : List ℝ) (l c : String),
       (Pitch.init p v s l c).position = p
       ∧ (Pitch.init p v s l c).velocity = v
       ∧ (Pitch.init p v s l c).spin = s
       ∧ (Pitch.init p v s l c).label = l
       ∧ (Pitch.init p v s l c).color = c
       ∧ (Pitch.init p v s l c).trail = [p])
    ∧ (Pitch.throwSteps 2 negDtPitch 10 (-1)).map (fun r => (r.1.trail, r.2))
        = some ([[0, 1, 0], [-3, -3, 0]], 1) :=
  ⟨fun _ _ _ _ _ => ⟨rfl, rfl, rfl, rfl, rfl, rfl⟩, negDtPitch_run⟩

end
